import Mathlib

/-!
Verification of the `snps` program (IUPAC-aware SNP calling against a
reference sequence).  The definitions below are a shallow embedding of the
Go source in `snps.go`: lookup arrays become total functions on bytes
(represented as `Char` for sequence symbols and `Nat` for codes), the
scanner loop of the reader becomes a structural recursion over the list of
input lines (lines are lists of characters, i.e. the scanned byte slices),
and the two writers become pure functions from the list of arriving
results to the list of emitted lines.
-/

namespace Snps

/-! ## Symbol codec (makeEncodingArray and friends in snps.go)

The Go arrays are 256-entry byte arrays, zero except at the listed
indices.  They are embedded as total functions defaulting to 0 / "". -/

/-- Embedding of `makeEncodingArray`: soft-gap Emmanuel Paradis encodings,
indexed by the input byte (here a `Char`), defaulting to 0 like the zeroed
Go array. -/
def makeEncodingArray (b : Char) : Nat :=
  if b = 'A' ∨ b = 'a' then 136
  else if b = 'G' ∨ b = 'g' then 72
  else if b = 'C' ∨ b = 'c' then 40
  else if b = 'T' ∨ b = 't' then 24
  else if b = 'R' ∨ b = 'r' then 192
  else if b = 'M' ∨ b = 'm' then 160
  else if b = 'W' ∨ b = 'w' then 144
  else if b = 'S' ∨ b = 's' then 96
  else if b = 'K' ∨ b = 'k' then 80
  else if b = 'Y' ∨ b = 'y' then 48
  else if b = 'V' ∨ b = 'v' then 224
  else if b = 'H' ∨ b = 'h' then 176
  else if b = 'D' ∨ b = 'd' then 208
  else if b = 'B' ∨ b = 'b' then 112
  else if b = 'N' ∨ b = 'n' then 240
  else if b = '-' then 244
  else if b = '?' then 242
  else 0

/-- Embedding of `makeEncodingArrayHardGaps`: identical to the soft
encoding except that the gap byte maps to 4 (all base bits cleared). -/
def makeEncodingArrayHardGaps (b : Char) : Nat :=
  if b = '-' then 4 else makeEncodingArray b

/-- Embedding of `makeDecodingArray`: code to IUPAC symbol string,
defaulting to "" like the zeroed Go array of strings. -/
def makeDecodingArray (code : Nat) : String :=
  if code = 136 then "A"
  else if code = 72 then "G"
  else if code = 40 then "C"
  else if code = 24 then "T"
  else if code = 192 then "R"
  else if code = 160 then "M"
  else if code = 144 then "W"
  else if code = 96 then "S"
  else if code = 80 then "K"
  else if code = 48 then "Y"
  else if code = 224 then "V"
  else if code = 176 then "H"
  else if code = 208 then "D"
  else if code = 112 then "B"
  else if code = 240 then "N"
  else if code = 244 then "-"
  else if code = 242 then "?"
  else ""

/-- Embedding of `makeDecodingArrayHardGaps`: the gap string sits at
code 4 instead of 244. -/
def makeDecodingArrayHardGaps (code : Nat) : String :=
  if code = 4 then "-"
  else if code = 244 then ""
  else makeDecodingArray code

/-- The encoding array selected by the `hardGaps` flag, as in
`readEncodeAlignment`. -/
def encodingArray (hardGaps : Bool) : Char → Nat :=
  if hardGaps then makeEncodingArrayHardGaps else makeEncodingArray

/-- The decoding array selected by the `hardGaps` flag, as in `getSNPs`. -/
def decodingArray (hardGaps : Bool) : Nat → String :=
  if hardGaps then makeDecodingArrayHardGaps else makeDecodingArray

/-! ## IUPAC base-set semantics

`lookupChar` is translated from the table of the same name in
`snps_test.go`: the set of canonical bases denoted by each defined symbol,
with gap and unknown denoting full ambiguity (the soft-gap reading). -/

/-- The 31 defined symbols: 15 IUPAC letters, `-`, `?`, and the 14
lower-case letter forms (Go's test list). -/
def definedSymbols : List Char :=
  ['A', 'G', 'C', 'T', 'R', 'M', 'W', 'S', 'K', 'Y', 'V', 'H', 'D', 'B', 'N', '-', '?',
   'a', 'g', 'c', 't', 'r', 'm', 'w', 's', 'k', 'y', 'v', 'h', 'd', 'b', 'n']

/-- The 29 letter forms with a non-empty base set (everything defined
except the gap and unknown markers). -/
def iupacLetters : List Char :=
  ['A', 'G', 'C', 'T', 'R', 'M', 'W', 'S', 'K', 'Y', 'V', 'H', 'D', 'B', 'N',
   'a', 'g', 'c', 't', 'r', 'm', 'w', 's', 'k', 'y', 'v', 'h', 'd', 'b', 'n']

/-- Base sets of the defined symbols, translated from the `lookupChar`
table in `snps_test.go` (soft-gap reading: `-` and `?` denote all four
bases). -/
def lookupChar (b : Char) : List Char :=
  if b = 'A' ∨ b = 'a' then ['A']
  else if b = 'C' ∨ b = 'c' then ['C']
  else if b = 'G' ∨ b = 'g' then ['G']
  else if b = 'T' ∨ b = 't' then ['T']
  else if b = 'R' ∨ b = 'r' then ['A', 'G']
  else if b = 'Y' ∨ b = 'y' then ['C', 'T']
  else if b = 'S' ∨ b = 's' then ['G', 'C']
  else if b = 'W' ∨ b = 'w' then ['A', 'T']
  else if b = 'K' ∨ b = 'k' then ['G', 'T']
  else if b = 'M' ∨ b = 'm' then ['A', 'C']
  else if b = 'B' ∨ b = 'b' then ['C', 'G', 'T']
  else if b = 'D' ∨ b = 'd' then ['A', 'G', 'T']
  else if b = 'H' ∨ b = 'h' then ['A', 'C', 'T']
  else if b = 'V' ∨ b = 'v' then ['A', 'C', 'G']
  else if b = 'N' ∨ b = 'n' ∨ b = '?' ∨ b = '-' then ['A', 'C', 'G', 'T']
  else []

/-- Modelled from the spec: base sets under the hard-gap policy, where a
gap "never matches" and therefore denotes no canonical base, while `?`
keeps the fully ambiguous reading (its hard-gap code 242 is unchanged). -/
def lookupCharHard (b : Char) : List Char :=
  if b = '-' then [] else lookupChar b

/-- Disjointness of two base sets, the right-hand side of the SNP
predicate correspondence. -/
def basesDisjoint (A B : List Char) : Prop :=
  ∀ b ∈ A, b ∉ B

instance (A B : List Char) : Decidable (basesDisjoint A B) :=
  inferInstanceAs (Decidable (∀ b ∈ A, b ∉ B))

/-! ## Diff engine (getSNPs in snps.go) -/

/-- The position-indexed loop body of `getSNPs`: walks the query sequence
with the running index `i`, reading `refSeq[i]` (out-of-range reads,
impossible when the query is no longer than the reference, default to
code 0). -/
def getSNPsFrom (DA : Nat → String) (refSeq : List Nat) : Nat → List Nat → List String
  | _, [] => []
  | i, nuc :: rest =>
    if refSeq.getD i 0 &&& nuc < 16 then
      (DA (refSeq.getD i 0) ++ toString (i + 1) ++ DA nuc) ::
        getSNPsFrom DA refSeq (i + 1) rest
    else
      getSNPsFrom DA refSeq (i + 1) rest

/-- Embedding of `getSNPs` for one query record: the list of SNP-call
strings for an encoded query sequence against the encoded reference. -/
def getSNPs (hardGaps : Bool) (refSeq seq : List Nat) : List String :=
  getSNPsFrom (decodingArray hardGaps) refSeq 0 seq

/-- Specification companion of `getSNPs`: one call per enumerated query
position whose codes share no base bit, rendered exactly as the engine
renders it. -/
def snpSpec (hardGaps : Bool) (refSeq seq : List Nat) : List String :=
  seq.enum.filterMap fun p =>
    if refSeq.getD p.1 0 &&& p.2 < 16 then
      some (decodingArray hardGaps (refSeq.getD p.1 0) ++ toString (p.1 + 1) ++
            decodingArray hardGaps p.2)
    else none

/-- The 1-based positions at which the engine records a call. -/
def snpPositions (refSeq seq : List Nat) : List Nat :=
  seq.enum.filterMap fun p =>
    if refSeq.getD p.1 0 &&& p.2 < 16 then some (p.1 + 1) else none

/-! ## Query results and the ordered writer (writeOutput in snps.go) -/

/-- One query's SNP result (the `snpLine` struct). -/
structure snpLine where
  queryname : String
  snps : List String
  idx : Nat
deriving DecidableEq

/-- The line `writeOutput` prints for one result:
`queryname + "," + strings.Join(snps, "|")`. -/
def renderSnpLine (sl : snpLine) : String :=
  sl.queryname ++ "," ++ String.intercalate "|" sl.snps

/-- The writer's pending map `outputMap`, keyed by ordinal.  A Go map is
an unordered dictionary accessed here only through keyed lookup, insert,
delete and an emptiness test, so an association list with those exact
operations is a faithful representation. -/
abbrev OutputMap := List (Nat × snpLine)

/-- Keyed lookup in the pending map. -/
def mapLookup (k : Nat) : OutputMap → Option snpLine
  | [] => none
  | (k₂, v) :: rest => if k₂ = k then some v else mapLookup k rest

/-- Deletion of a key (Go `delete`), a no-op when the key is absent. -/
def mapErase (k : Nat) : OutputMap → OutputMap
  | [] => []
  | (k₂, v) :: rest =>
    if k₂ = k then mapErase k rest else (k₂, v) :: mapErase k rest

/-- Insertion with overwrite (Go map assignment). -/
def mapInsert (k : Nat) (v : snpLine) (m : OutputMap) : OutputMap :=
  (k, v) :: mapErase k m

/-- State of `writeOutput` while receiving results: the pending map, the
next expected ordinal `counter`, and the lines already written (after the
header). -/
structure WriterState where
  pending : OutputMap
  counter : Nat
  out : List String
deriving DecidableEq

/-- The body of `writeOutput`'s receive loop for one arriving result:
store it in the map, then, if the next expected ordinal is present, write
exactly that one line and advance the counter (the Go loop checks the
counter once per arrival, not in a flushing inner loop). -/
def writeStep (st : WriterState) (sl : snpLine) : WriterState :=
  let m₁ := mapInsert sl.idx sl st.pending
  match mapLookup st.counter m₁ with
  | some SL =>
      ⟨mapErase st.counter m₁, st.counter + 1, st.out ++ [renderSnpLine SL]⟩
  | none => ⟨m₁, st.counter, st.out⟩

/-- The drain loop after the input stream ends: while the map is
non-empty, write the entry at `counter` (Go's map indexing yields the
zero value `snpLine{}` when the key is absent), delete it, and advance.
The Go loop is unbounded; `fuel` bounds the recursion and the number of
input results suffices whenever the ordinals are exactly `0..N-1`, which
is the writer's input contract. -/
def drainLoop : Nat → OutputMap → Nat → List String
  | 0, _, _ => []
  | fuel + 1, m, counter =>
    if m.isEmpty then []
    else
      renderSnpLine ((mapLookup counter m).getD ⟨"", [], 0⟩) ::
        drainLoop fuel (mapErase counter m) (counter + 1)

/-- Embedding of `writeOutput`: the header line, then the lines produced
while receiving, then the drain of the pending map. -/
def writeOutput (arrivals : List snpLine) : List String :=
  let st := arrivals.foldl writeStep ⟨[], 0, []⟩
  "query,SNPs" :: st.out ++ drainLoop arrivals.length st.pending st.counter

/-! ## Aggregate writer (aggregateWriteOutput in snps.go)

The Go function tallies `propMap[snp]` over every call of every arriving
result and counts the results in `counter`; after the stream ends it
sorts the distinct call strings with `sort.SliceStable` and emits
`snp,proportion` for the calls whose proportion is not below the
threshold.  Counts and proportions are modelled in `ℚ`: the Go `float64`
counts are exact small integers and the single division is the only
rounding step, which exact rationals replace.  The printed fixed-point
rendering of the proportion is not modelled; the output is the list of
(call string, proportion) pairs in emission order, which follow the
header line `change,proportion`. -/

/-- Numeric position parsed from a call string, Go
`strconv.Atoi(s[1:len(s)-1])`: the bytes between the reference-symbol
prefix byte and the trailing allele byte (call strings are ASCII, so
bytes and characters coincide); `Atoi` yields 0 on a parse error. -/
def snpPos (s : String) : Nat :=
  (((s.drop 1).dropRight 1).toNat?).getD 0

/-- Allele byte of a call string, Go `s[len(s)-1]`, as a numeric byte
value. -/
def snpAlt (s : String) : Nat :=
  (s.data.getLastD ' ').toNat

/-- The strict comparison closure passed to `sort.SliceStable`. -/
def aggLess (a b : String) : Bool :=
  decide (snpPos a < snpPos b) || (decide (snpPos a = snpPos b) && decide (snpAlt a < snpAlt b))

/-- The stable-sort order actually used: `sort.SliceStable` with a strict
`less` yields a list pairwise-ordered by the negation of the reversed
comparison. -/
def aggLe (a b : String) : Bool :=
  !aggLess b a

/-- Occurrence count of one call string across all arriving results (the
final value of `propMap[s]`). -/
def snpCount (arrivals : List snpLine) (s : String) : Nat :=
  (arrivals.flatMap snpLine.snps).count s

/-- Proportion of one call: occurrences divided by the total number of
queries processed, queries with no calls included. -/
def snpProportion (arrivals : List snpLine) (s : String) : ℚ :=
  (snpCount arrivals s : ℚ) / (arrivals.length : ℚ)

/-- Embedding of `aggregateWriteOutput`: the distinct call strings (map
keys; Go map iteration order is unspecified, first-occurrence order is
chosen here and the subsequent sort makes every proved property
independent of that choice), stably sorted by position then allele, each
emitted with its proportion unless the proportion is below the
threshold. -/
def aggregateWriteOutput (threshold : ℚ) (arrivals : List snpLine) : List (String × ℚ) :=
  let order := ((arrivals.flatMap snpLine.snps).dedup).mergeSort aggLe
  order.filterMap fun s =>
    if snpProportion arrivals s < threshold then none
    else some (s, snpProportion arrivals s)

/-! ## Alignment reader (readEncodeAlignment in snps.go)

The scanner yields one byte slice per input line; a line is modelled as a
`List Char`.  The Go goroutine reports errors by sending on an error
channel, which the driver answers by aborting the run; the sequential
embedding returns the first such error.  Go's runtime faults
(out-of-range indexing such as `line[0]` on an empty line, or
`strings.Fields(desc)[0]` on a blank description) are modelled as the
distinguished error `ReadError.indexPanic`. -/

/-- Errors of the reader: the explicit "badly formatted fasta file" error
and the runtime index-out-of-range fault. -/
inductive ReadError where
  | formatErr
  | indexPanic
deriving DecidableEq

/-- One encoded record (the `encodedFastaRecord` struct). -/
structure encodedFastaRecord where
  ID : String
  Description : String
  Seq : List Nat
  idx : Nat
deriving DecidableEq

/-- Go `strings.Fields`: split on whitespace, dropping empty fields. -/
def fields (s : String) : List String :=
  (s.split Char.isWhitespace).filter (· ≠ "")

/-- Loop state of the reader: the `first` flag, the current record under
construction, the running ordinal, and the records already emitted. -/
structure ReaderState where
  first : Bool
  id : String
  description : String
  seqBuffer : List Nat
  counter : Nat
  acc : List encodedFastaRecord

/-- The scan loop of `readEncodeAlignment`, one step per input line.  An
empty line faults on `line[0]`; a header line whose description has no
whitespace-delimited field faults on `Fields(description)[0]`; the first
line must be a header or the format error is raised (the Go code sends
the error to the driver, which aborts the run). -/
def readLoop (enc : Char → Nat) : ReaderState → List (List Char) →
    Except ReadError (List encodedFastaRecord)
  | st, [] =>
      .ok (st.acc ++ [⟨st.id, st.description, st.seqBuffer, st.counter⟩])
  | st, line :: rest =>
    match line with
    | [] => .error .indexPanic
    | c :: cs =>
      if st.first then
        if c ≠ '>' then .error .formatErr
        else
          match fields (String.mk cs) with
          | [] => .error .indexPanic
          | id₁ :: _ =>
              readLoop enc ⟨false, id₁, String.mk cs, st.seqBuffer, st.counter, st.acc⟩ rest
      else if c = '>' then
        match fields (String.mk cs) with
        | [] => .error .indexPanic
        | id₁ :: _ =>
            readLoop enc
              ⟨false, id₁, String.mk cs, [],
               st.counter + 1,
               st.acc ++ [⟨st.id, st.description, st.seqBuffer, st.counter⟩]⟩ rest
      else
        readLoop enc
          ⟨st.first, st.id, st.description, st.seqBuffer ++ line.map enc,
           st.counter, st.acc⟩ rest

/-- Embedding of `readEncodeAlignment` on the list of scanned lines. -/
def readEncodeAlignment (hardGaps : Bool) (lines : List (List Char)) :
    Except ReadError (List encodedFastaRecord) :=
  readLoop (encodingArray hardGaps) ⟨true, "", "", [], 0, []⟩ lines

/-! ## Claims about the symbol codec -/

set_option maxRecDepth 10000

/-- C1: for every pair of the 31 defined symbols and under both the
soft-gap and the hard-gap encodings, the SNP predicate
`encode x &&& encode y < 16` holds iff the base sets denoted by the two
symbols (per the IUPAC table, with gap and unknown read according to the
active policy) are disjoint. -/
theorem encode_snp_iff_disjoint :
    ∀ x ∈ definedSymbols, ∀ y ∈ definedSymbols,
      ((makeEncodingArray x &&& makeEncodingArray y < 16) ↔
        basesDisjoint (lookupChar x) (lookupChar y))
      ∧ ((makeEncodingArrayHardGaps x &&& makeEncodingArrayHardGaps y < 16) ↔
        basesDisjoint (lookupCharHard x) (lookupCharHard y)) := by
  decide

/-- Witness for C1 at the pair ('G', 't'). -/
theorem encode_snp_iff_disjoint_witness :
    ((makeEncodingArray 'G' &&& makeEncodingArray 't' < 16) ↔
      basesDisjoint (lookupChar 'G') (lookupChar 't'))
    ∧ ((makeEncodingArrayHardGaps 'G' &&& makeEncodingArrayHardGaps 't' < 16) ↔
      basesDisjoint (lookupCharHard 'G') (lookupCharHard 't')) :=
  encode_snp_iff_disjoint 'G' (by decide) 't' (by decide)

/-- C3 counterexample: in soft-gap mode `-` and `N` are not encoded to
the same code (244 versus 240). -/
theorem softGap_same_code_cex :
    makeEncodingArray '-' = 244 ∧ makeEncodingArray 'N' = 240 ∧
      ¬ makeEncodingArray '-' = makeEncodingArray 'N' := by
  decide

/-- C3 (amended): in soft-gap mode `-`, `?` and `N` all carry the full
upper nibble (all four base bits set), so each behaves as full ambiguity
for the SNP test, but their codes are pairwise distinct (244, 242, 240
respectively). -/
theorem softGap_full_ambiguity_codes :
    makeEncodingArray '-' &&& 240 = 240
    ∧ makeEncodingArray '?' &&& 240 = 240
    ∧ makeEncodingArray 'N' &&& 240 = 240
    ∧ makeEncodingArray '-' = 244
    ∧ makeEncodingArray '?' = 242
    ∧ makeEncodingArray 'N' = 240 := by
  decide

/-- C5: encoding then decoding any of the 31 defined symbols yields the
upper-case canonical letter, under both gap policies. -/
theorem codec_round_trip :
    ∀ c ∈ definedSymbols,
      makeDecodingArray (makeEncodingArray c) = c.toUpper.toString
      ∧ makeDecodingArrayHardGaps (makeEncodingArrayHardGaps c) = c.toUpper.toString := by
  decide

/-- Witness for C5 at the lower-case symbol 'a'. -/
theorem codec_round_trip_witness :
    makeDecodingArray (makeEncodingArray 'a') = 'a'.toUpper.toString
    ∧ makeDecodingArrayHardGaps (makeEncodingArrayHardGaps 'a') = 'a'.toUpper.toString :=
  codec_round_trip 'a' (by decide)

/-- C10: under the hard-gap policy only `-` has all base bits cleared;
`?` keeps code 242 with a full upper nibble, so against every letter form
with a non-empty base set the conjunction stays at or above 16 and the
diff engine never calls `?` as a difference. -/
theorem hardGap_unknown_keeps_ambiguity :
    (∀ x ∈ definedSymbols, (makeEncodingArrayHardGaps x &&& 240 = 0 ↔ x = '-'))
    ∧ makeEncodingArrayHardGaps '?' = 242
    ∧ (∀ x ∈ iupacLetters,
        16 ≤ makeEncodingArrayHardGaps '?' &&& makeEncodingArrayHardGaps x)
    ∧ (∀ x ∈ iupacLetters,
        getSNPs true [makeEncodingArrayHardGaps x] [makeEncodingArrayHardGaps '?'] = []) := by
  decide

/-- Witness for C10 at the letter 'A'. -/
theorem hardGap_unknown_keeps_ambiguity_witness :
    (makeEncodingArrayHardGaps 'A' &&& 240 = 0 ↔ 'A' = '-')
    ∧ 16 ≤ makeEncodingArrayHardGaps '?' &&& makeEncodingArrayHardGaps 'A'
    ∧ getSNPs true [makeEncodingArrayHardGaps 'A'] [makeEncodingArrayHardGaps '?'] = [] :=
  ⟨hardGap_unknown_keeps_ambiguity.1 'A' (by decide),
   hardGap_unknown_keeps_ambiguity.2.2.1 'A' (by decide),
   hardGap_unknown_keeps_ambiguity.2.2.2 'A' (by decide)⟩

/-! ## Claims about the diff engine -/

/-- The indexed loop of the diff engine equals a filterMap over the
enumerated query sequence, for any starting index. -/
theorem getSNPsFrom_eq_filterMap (DA : Nat → String) (refSeq : List Nat) :
    ∀ (seq : List Nat) (n : Nat),
      getSNPsFrom DA refSeq n seq =
        (seq.enumFrom n).filterMap (fun p =>
          if refSeq.getD p.1 0 &&& p.2 < 16 then
            some (DA (refSeq.getD p.1 0) ++ toString (p.1 + 1) ++ DA p.2)
          else none)
  | [], _ => rfl
  | nuc :: rest, n => by
      simp only [getSNPsFrom, List.enumFrom_cons, List.filterMap_cons]
      by_cases h : refSeq.getD n 0 &&& nuc < 16
      · simp only [if_pos h, getSNPsFrom_eq_filterMap DA refSeq rest (n + 1)]
      · simp only [if_neg h, getSNPsFrom_eq_filterMap DA refSeq rest (n + 1)]

/-- Enumerated positions are strictly increasing along the list. -/
theorem pairwise_fst_lt_enumFrom (l : List Nat) (n : Nat) :
    (l.enumFrom n).Pairwise (fun p q => p.1 < q.1) := by
  have h : ((l.enumFrom n).map Prod.fst).Pairwise (· < ·) := by
    rw [List.enumFrom_map_fst]
    exact List.pairwise_lt_range' n l.length
  exact List.pairwise_map.mp h

/-- C2: for a query no longer than the reference, the diff engine records
a call at exactly the positions whose codes share no base bit, each call
rendered as `decode(reference) ++ (i+1) ++ decode(query)`, and the
1-based positions of a result are strictly increasing. -/
theorem getSNPs_records_iff (hardGaps : Bool) (refSeq seq : List Nat)
    (h : seq.length ≤ refSeq.length) :
    getSNPs hardGaps refSeq seq = snpSpec hardGaps refSeq seq
    ∧ List.Sorted (· < ·) (snpPositions refSeq seq) := by
  constructor
  · show getSNPsFrom (decodingArray hardGaps) refSeq 0 seq = _
    rw [getSNPsFrom_eq_filterMap]
    rfl
  · refine List.Pairwise.filterMap _ ?_ (pairwise_fst_lt_enumFrom seq 0)
    intro p q hpq b hb c hc
    by_cases hp : refSeq.getD p.1 0 &&& p.2 < 16
    · by_cases hq : refSeq.getD q.1 0 &&& q.2 < 16
      · simp only [Option.mem_def, if_pos hp, Option.some.injEq] at hb
        simp only [Option.mem_def, if_pos hq, Option.some.injEq] at hc
        omega
      · simp only [Option.mem_def, if_neg hq, reduceCtorEq] at hc
    · simp only [Option.mem_def, if_neg hp, reduceCtorEq] at hb

/-- Witness for C2: reference code 136 (`A`), query code 72 (`G`). -/
theorem getSNPs_records_iff_witness :
    getSNPs false [136] [72] = snpSpec false [136] [72]
    ∧ List.Sorted (· < ·) (snpPositions [136] [72]) :=
  getSNPs_records_iff false [136] [72] (by decide)

/-! ## Claims about the aggregate writer -/

/-- The sort order used by the aggregate writer, as a proposition: the
stable sort with the strict `less` closure orders two calls whenever the
reversed strict comparison fails. -/
theorem aggLe_iff (a b : String) :
    aggLe a b = true ↔
      (snpPos a < snpPos b ∨ (snpPos a = snpPos b ∧ snpAlt a ≤ snpAlt b)) := by
  simp only [aggLe, aggLess, Bool.not_eq_true', Bool.or_eq_false_iff,
    Bool.and_eq_false_iff, decide_eq_false_iff_not, not_lt, decide_eq_true_eq]
  constructor
  · rintro ⟨h1, h2 | h2⟩ <;> omega
  · intro h
    omega

/-- C6: in aggregate mode the emitted calls are sorted by numeric
position ascending, and for equal positions by the allele byte
ascending. -/
theorem aggregate_output_sorted (t : ℚ) (arrivals : List snpLine) :
    List.Sorted
      (fun a b : String × ℚ =>
        snpPos a.1 < snpPos b.1 ∨ (snpPos a.1 = snpPos b.1 ∧ snpAlt a.1 ≤ snpAlt b.1))
      (aggregateWriteOutput t arrivals) := by
  have hs : (((arrivals.flatMap snpLine.snps).dedup).mergeSort aggLe).Pairwise
      (fun a b => aggLe a b = true) := by
    refine List.sorted_mergeSort ?_ ?_ _
    · intro a b c hab hbc
      rw [aggLe_iff] at *
      omega
    · intro a b
      rw [Bool.or_eq_true, aggLe_iff, aggLe_iff]
      omega
  refine List.Pairwise.filterMap _ ?_ hs
  intro a b hab x hx y hy
  rw [aggLe_iff] at hab
  by_cases ha : snpProportion arrivals a < t
  · simp only [Option.mem_def, if_pos ha, reduceCtorEq] at hx
  · by_cases hb : snpProportion arrivals b < t
    · simp only [Option.mem_def, if_pos hb, reduceCtorEq] at hy
    · simp only [Option.mem_def, if_neg ha, Option.some.injEq] at hx
      simp only [Option.mem_def, if_neg hb, Option.some.injEq] at hy
      subst hx hy
      exact hab

/-- C7: a distinct call is emitted with its proportion iff it occurs and
its proportion (occurrences over all queries processed, queries without
calls included) is at least the threshold; proportions are non-negative,
so the default threshold 0 reports every distinct call, and calls below
the threshold are simply absent from the output. -/
theorem aggregate_threshold_iff (t : ℚ) (arrivals : List snpLine) (s : String) (p : ℚ) :
    ((s, p) ∈ aggregateWriteOutput t arrivals ↔
      (s ∈ arrivals.flatMap snpLine.snps ∧ p = snpProportion arrivals s
        ∧ t ≤ snpProportion arrivals s))
    ∧ 0 ≤ snpProportion arrivals s
    ∧ (t = 0 → s ∈ arrivals.flatMap snpLine.snps →
        (s, snpProportion arrivals s) ∈ aggregateWriteOutput 0 arrivals) := by
  have hnonneg : 0 ≤ snpProportion arrivals s := by
    unfold snpProportion
    positivity
  have hmem : ∀ (t₂ : ℚ) (p₂ : ℚ), ((s, p₂) ∈ aggregateWriteOutput t₂ arrivals ↔
      (s ∈ arrivals.flatMap snpLine.snps ∧ p₂ = snpProportion arrivals s
        ∧ t₂ ≤ snpProportion arrivals s)) := by
    intro t₂ p₂
    unfold aggregateWriteOutput
    rw [List.mem_filterMap]
    constructor
    · rintro ⟨a, ha, hga⟩
      by_cases hth : snpProportion arrivals a < t₂
      · simp only [if_pos hth, reduceCtorEq] at hga
      · simp only [if_neg hth, Option.some.injEq, Prod.mk.injEq] at hga
        obtain ⟨rfl, rfl⟩ := hga
        rw [List.mem_mergeSort, List.mem_dedup] at ha
        exact ⟨ha, rfl, not_lt.mp hth⟩
    · rintro ⟨hmem₂, rfl, hth⟩
      refine ⟨s, ?_, ?_⟩
      · rw [List.mem_mergeSort, List.mem_dedup]
        exact hmem₂
      · rw [if_neg (not_lt.mpr hth)]
  refine ⟨hmem t p, hnonneg, ?_⟩
  intro ht hs₂
  exact (hmem 0 (snpProportion arrivals s)).mpr ⟨hs₂, rfl, hnonneg⟩

/-- Witness for C7: one query carrying the single call `A1G`, threshold
0. -/
theorem aggregate_threshold_iff_witness :
    ((("A1G", (1 : ℚ)) ∈ aggregateWriteOutput 0 [⟨"q", ["A1G"], 0⟩] ↔
      ("A1G" ∈ [(⟨"q", ["A1G"], 0⟩ : snpLine)].flatMap snpLine.snps
        ∧ (1 : ℚ) = snpProportion [⟨"q", ["A1G"], 0⟩] "A1G"
        ∧ (0 : ℚ) ≤ snpProportion [⟨"q", ["A1G"], 0⟩] "A1G"))
    ∧ (0 : ℚ) ≤ snpProportion [⟨"q", ["A1G"], 0⟩] "A1G"
    ∧ ((0 : ℚ) = 0 → "A1G" ∈ [(⟨"q", ["A1G"], 0⟩ : snpLine)].flatMap snpLine.snps →
        ("A1G", snpProportion [⟨"q", ["A1G"], 0⟩] "A1G") ∈
          aggregateWriteOutput 0 [⟨"q", ["A1G"], 0⟩])) :=
  aggregate_threshold_iff 0 [⟨"q", ["A1G"], 0⟩] "A1G" 1

/-! ## Claims about the alignment reader -/

/-- After the first line, every step of the scan loop either faults or
recurses, so an empty line anywhere in the remaining input forces the
index fault. -/
theorem readLoop_panic_of_empty_mem (enc : Char → Nat) :
    ∀ (ls : List (List Char)) (st : ReaderState), st.first = false → [] ∈ ls →
      readLoop enc st ls = Except.error ReadError.indexPanic
  | [], _, _, hmem => absurd hmem (List.not_mem_nil [])
  | l :: ls', st, hfirst, hmem => by
    match l with
    | [] => rfl
    | c :: cs =>
      have hmem' : [] ∈ ls' := by
        rcases List.mem_cons.mp hmem with h | h
        · exact absurd h.symm (List.cons_ne_nil c cs)
        · exact h
      by_cases hc : c = '>'
      · subst hc
        cases hf : fields (String.mk cs) with
        | nil => simp [readLoop, hfirst, hf]
        | cons id₁ tl =>
          simp only [readLoop, hfirst, hf, Bool.false_eq_true, if_false,
            reduceIte]
          exact readLoop_panic_of_empty_mem enc ls' _ rfl hmem'
      · simp only [readLoop, hfirst, Bool.false_eq_true, if_false, if_neg hc]
        exact readLoop_panic_of_empty_mem enc ls' _ rfl hmem'

/-- C9: the reader indexes the first byte of every scanned line without
an emptiness check: an empty first line faults immediately, and with a
valid leading header any later empty line also faults with the
index-out-of-range error, which is distinct from the format error. -/
theorem reader_empty_line_panics (hardGaps : Bool) (ds : List Char) (rest : List (List Char)) :
    readEncodeAlignment hardGaps ([] :: rest) = Except.error ReadError.indexPanic
    ∧ ([] ∈ rest →
        readEncodeAlignment hardGaps (('>' :: ds) :: rest) = Except.error ReadError.indexPanic)
    ∧ ReadError.indexPanic ≠ ReadError.formatErr := by
  refine ⟨rfl, ?_, by decide⟩
  intro hmem
  show readLoop _ _ _ = _
  cases hf : fields (String.mk ds) with
  | nil => simp [readLoop, hf]
  | cons id₁ tl =>
    simp only [readLoop, hf, reduceIte]
    exact readLoop_panic_of_empty_mem _ rest _ rfl hmem

/-- C8 (amended): when the first line is non-empty and does not start
with the header marker, the reader fails with the format error and
produces no record. -/
theorem reader_format_error (hardGaps : Bool) (c : Char) (cs : List Char)
    (rest : List (List Char)) (h : c ≠ '>') :
    readEncodeAlignment hardGaps ((c :: cs) :: rest) = Except.error ReadError.formatErr := by
  show readLoop _ _ _ = _
  simp [readLoop, h]

/-- C8 counterexample: an input whose first line is empty and whose first
non-empty line is `AAA` (no header marker) faults with the index error
instead of the format error the claim promises. -/
theorem reader_first_nonempty_cex :
    readEncodeAlignment false [[], ['A', 'A', 'A']] = Except.error ReadError.indexPanic
    ∧ ReadError.indexPanic ≠ ReadError.formatErr :=
  ⟨rfl, by decide⟩

/-- Witness for the amended C8 at the one-line input `A`. -/
theorem reader_format_error_witness :
    readEncodeAlignment false (['A'] :: []) = Except.error ReadError.formatErr :=
  reader_format_error false 'A' [] [] (by decide)

/-- Witness for C9: an empty first line, and an empty line after the
header `>x`. -/
theorem reader_empty_line_panics_witness :
    readEncodeAlignment false ([] :: [[]]) = Except.error ReadError.indexPanic
    ∧ readEncodeAlignment false (('>' :: ['x']) :: [[]]) = Except.error ReadError.indexPanic :=
  ⟨(reader_empty_line_panics false ['x'] [[]]).1,
   (reader_empty_line_panics false ['x'] [[]]).2.1 (by decide)⟩

/-! ## Claims about the ordered writer -/

/-- Lookup after deleting a key in the pending map. -/
theorem mapLookup_erase (k j : Nat) (m : OutputMap) :
    mapLookup j (mapErase k m) = if k = j then none else mapLookup j m := by
  induction m with
  | nil => simp [mapErase, mapLookup]
  | cons p rest ih =>
    obtain ⟨k₂, v⟩ := p
    by_cases h₂ : k₂ = k
    · subst h₂
      by_cases hj : k₂ = j
      · subst hj
        simp [mapErase, mapLookup, ih]
      · simp [mapErase, mapLookup, hj, ih]
    · by_cases hj : k₂ = j
      · subst hj
        have hkj : ¬ k = k₂ := fun h => h₂ h.symm
        simp [mapErase, mapLookup, h₂, hkj]
      · simp [mapErase, mapLookup, h₂, hj, ih]

/-- Lookup after storing a key in the pending map. -/
theorem mapLookup_insert (k j : Nat) (v : snpLine) (m : OutputMap) :
    mapLookup j (mapInsert k v m) = if k = j then some v else mapLookup j m := by
  unfold mapInsert
  by_cases h : k = j
  · simp [mapLookup, h]
  · simp [mapLookup, h, mapLookup_erase]

/-- A pending map with no bindings is the empty map. -/
theorem outputMap_eq_nil (m : OutputMap) (h : ∀ k, mapLookup k m = none) : m = [] := by
  cases m with
  | nil => rfl
  | cons p rest =>
    obtain ⟨k, v⟩ := p
    have hk := h k
    simp [mapLookup] at hk

/-- Unfolding of one receive step when the next expected ordinal is
present after the insertion. -/
theorem writeStep_eq_some (st : WriterState) (sl SL : snpLine)
    (h : mapLookup st.counter (mapInsert sl.idx sl st.pending) = some SL) :
    writeStep st sl =
      ⟨mapErase st.counter (mapInsert sl.idx sl st.pending), st.counter + 1,
       st.out ++ [renderSnpLine SL]⟩ := by
  simp only [writeStep, h]

/-- Unfolding of one receive step when the next expected ordinal is still
missing. -/
theorem writeStep_eq_none (st : WriterState) (sl : snpLine)
    (h : mapLookup st.counter (mapInsert sl.idx sl st.pending) = none) :
    writeStep st sl = ⟨mapInsert sl.idx sl st.pending, st.counter, st.out⟩ := by
  simp only [writeStep, h]

/-- Invariant of the receive loop of `writeOutput`: with `done` the
ordinals already arrived, the lines written so far are exactly the results
with ordinals below `counter` in order, the pending map holds exactly the
arrived results with ordinal at or above `counter`, and every ordinal
below `counter` has arrived. -/
def WriterInv (q : Nat → snpLine) (done : List Nat) (st : WriterState) : Prop :=
  st.out = (List.range st.counter).map (fun i => renderSnpLine (q i))
  ∧ (∀ k, mapLookup k st.pending =
      if st.counter ≤ k ∧ k ∈ done then some (q k) else none)
  ∧ (∀ k, k < st.counter → k ∈ done)

/-- One arrival with a fresh ordinal preserves the receive-loop
invariant. -/
theorem writerInv_step (q : Nat → snpLine) (hidx : ∀ i, (q i).idx = i)
    (done : List Nat) (st : WriterState) (i : Nat)
    (hInv : WriterInv q done st) (hi : i ∉ done) :
    WriterInv q (i :: done) (writeStep st (q i)) := by
  obtain ⟨hout, hmap, hlt⟩ := hInv
  have hci : st.counter ≤ i := by
    by_contra h
    exact hi (hlt i (by omega))
  have hm₁ : ∀ k, mapLookup k (mapInsert (q i).idx (q i) st.pending) =
      if i = k then some (q i) else mapLookup k st.pending := by
    intro k
    rw [hidx i, mapLookup_insert]
  cases hL : mapLookup st.counter (mapInsert (q i).idx (q i) st.pending) with
  | some SL =>
    rw [writeStep_eq_some st (q i) SL hL]
    rw [hm₁ st.counter] at hL
    have hSL : SL = q st.counter ∧ st.counter ∈ (i :: done) := by
      by_cases hic : i = st.counter
      · rw [if_pos hic] at hL
        obtain rfl : q i = SL := Option.some.inj hL
        refine ⟨by rw [hic], ?_⟩
        rw [← hic]
        exact List.mem_cons_self i done
      · rw [if_neg hic, hmap st.counter] at hL
        by_cases hcd : st.counter ≤ st.counter ∧ st.counter ∈ done
        · rw [if_pos hcd] at hL
          exact ⟨(Option.some.inj hL).symm, List.mem_cons_of_mem i hcd.2⟩
        · rw [if_neg hcd] at hL
          exact absurd hL (by simp)
    refine ⟨?_, ?_, ?_⟩
    · show st.out ++ [renderSnpLine SL] =
        (List.range (st.counter + 1)).map (fun j => renderSnpLine (q j))
      rw [hout, hSL.1, List.range_succ, List.map_append, List.map_singleton]
    · intro k
      show mapLookup k (mapErase st.counter (mapInsert (q i).idx (q i) st.pending)) =
        if st.counter + 1 ≤ k ∧ k ∈ i :: done then some (q k) else none
      rw [mapLookup_erase, hm₁ k]
      by_cases hck : st.counter = k
      · rw [if_pos hck, if_neg (by omega)]
      · rw [if_neg hck]
        by_cases hik : i = k
        · rw [if_pos hik]
          have hk₂ : st.counter + 1 ≤ k ∧ k ∈ (i :: done) := by
            refine ⟨by omega, ?_⟩
            rw [← hik]
            exact List.mem_cons_self i done
          rw [if_pos hk₂, hik]
        · rw [if_neg hik, hmap k]
          by_cases hkd : k ∈ done
          · by_cases hlek : st.counter ≤ k
            · rw [if_pos ⟨hlek, hkd⟩, if_pos ⟨by omega, List.mem_cons_of_mem i hkd⟩]
            · rw [if_neg (fun hc => hlek hc.1), if_neg (fun hc => hlek (by omega))]
          · have hnd : ¬ (k ∈ (i :: done)) := by
              intro hc
              rcases List.mem_cons.mp hc with hc | hc
              · exact hik hc.symm
              · exact hkd hc
            rw [if_neg (fun hc => hkd hc.2), if_neg (fun hc => hnd hc.2)]
    · show ∀ k, k < st.counter + 1 → k ∈ i :: done
      intro k hk
      by_cases hkc : k < st.counter
      · exact List.mem_cons_of_mem i (hlt k hkc)
      · have hke : k = st.counter := by omega
        rw [hke]
        exact hSL.2
  | none =>
    rw [writeStep_eq_none st (q i) hL]
    rw [hm₁ st.counter] at hL
    have hic : i ≠ st.counter := by
      intro h
      rw [if_pos h] at hL
      exact Option.noConfusion hL
    refine ⟨hout, ?_, fun k hk => List.mem_cons_of_mem i (hlt k hk)⟩
    intro k
    show mapLookup k (mapInsert (q i).idx (q i) st.pending) =
      if st.counter ≤ k ∧ k ∈ i :: done then some (q k) else none
    rw [hm₁ k]
    by_cases hik : i = k
    · rw [if_pos hik]
      have hk₂ : st.counter ≤ k ∧ k ∈ (i :: done) := by
        refine ⟨by omega, ?_⟩
        rw [← hik]
        exact List.mem_cons_self i done
      rw [if_pos hk₂, hik]
    · rw [if_neg hik, hmap k]
      by_cases hkd : k ∈ done
      · by_cases hlek : st.counter ≤ k
        · rw [if_pos ⟨hlek, hkd⟩, if_pos ⟨hlek, List.mem_cons_of_mem i hkd⟩]
        · rw [if_neg (fun hc => hlek hc.1), if_neg (fun hc => hlek hc.1)]
      · have hnd : ¬ (k ∈ (i :: done)) := by
          intro hc
          rcases List.mem_cons.mp hc with hc | hc
          · exact hik hc.symm
          · exact hkd hc
        rw [if_neg (fun hc => hkd hc.2), if_neg (fun hc => hnd hc.2)]



/-- Processing any list of fresh, distinct ordinals preserves the
invariant, with the arrived set grown accordingly. -/
theorem writerInv_fold (q : Nat → snpLine) (hidx : ∀ i, (q i).idx = i) :
    ∀ (todo done : List Nat) (st : WriterState),
      WriterInv q done st → todo.Nodup → (∀ x ∈ todo, x ∉ done) →
      ∃ done₂ : List Nat, (∀ x, x ∈ done₂ ↔ x ∈ todo ∨ x ∈ done)
        ∧ WriterInv q done₂ (todo.foldl (fun s j => writeStep s (q j)) st)
  | [], done, st, hInv, _, _ => ⟨done, by simp, hInv⟩
  | i :: todo', done, st, hInv, hnd, hfresh => by
    have hstep := writerInv_step q hidx done st i hInv (hfresh i (List.mem_cons_self i todo'))
    have hnd' : todo'.Nodup := (List.nodup_cons.mp hnd).2
    have hfresh' : ∀ x ∈ todo', x ∉ (i :: done) := by
      intro x hx hmem
      rcases List.mem_cons.mp hmem with h | h
      · exact (List.nodup_cons.mp hnd).1 (h ▸ hx)
      · exact hfresh x (List.mem_cons_of_mem i hx) h
    obtain ⟨done₂, hd₂, hInv₂⟩ :=
      writerInv_fold q hidx todo' (i :: done) (writeStep st (q i)) hstep hnd' hfresh'
    refine ⟨done₂, ?_, hInv₂⟩
    intro x
    rw [hd₂ x]
    simp only [List.mem_cons]
    tauto

/-- The drain loop, started on a map holding exactly the results with
ordinals from `c` up to `N`, emits them in increasing ordinal order,
given fuel at least `N - c`. -/
theorem drainLoop_run (q : Nat → snpLine) (N : Nat) :
    ∀ (d : Nat) (m : OutputMap) (c : Nat),
      (∀ k, mapLookup k m = if c ≤ k ∧ k < N then some (q k) else none) →
      N ≤ c + d →
      drainLoop d m c = (List.range' c (N - c)).map (fun i => renderSnpLine (q i))
  | 0, m, c, hmap, hle => by
    have hnc : N - c = 0 := by omega
    rw [hnc]
    rfl
  | d + 1, m, c, hmap, hle => by
    by_cases hc : c < N
    · have hlc : mapLookup c m = some (q c) := by
        rw [hmap c, if_pos ⟨Nat.le_refl c, hc⟩]
      have hne : m.isEmpty = false := by
        cases m with
        | nil => simp [mapLookup] at hlc
        | cons p rest => rfl
      have hmap₂ : ∀ k, mapLookup k (mapErase c m) =
          if c + 1 ≤ k ∧ k < N then some (q k) else none := by
        intro k
        rw [mapLookup_erase, hmap k]
        by_cases hck : c = k
        · rw [if_pos hck, if_neg (by omega)]
        · rw [if_neg hck]
          by_cases hk : c ≤ k ∧ k < N
          · rw [if_pos hk, if_pos ⟨by omega, hk.2⟩]
          · rw [if_neg hk, if_neg (by omega)]
      have hrec := drainLoop_run q N d (mapErase c m) (c + 1) hmap₂ (by omega)
      show (if m.isEmpty then [] else
        renderSnpLine ((mapLookup c m).getD ⟨"", [], 0⟩) ::
          drainLoop d (mapErase c m) (c + 1)) = _
      rw [hne, hlc, hrec]
      have hN : N - c = (N - (c + 1)) + 1 := by omega
      rw [hN, List.range'_succ, List.map_cons]
      rfl
    · have hall : ∀ k, mapLookup k m = none := by
        intro k
        rw [hmap k, if_neg (by omega)]
      have hmn : m = [] := outputMap_eq_nil m hall
      subst hmn
      have hnc : N - c = 0 := by omega
      rw [hnc]
      rfl

/-- C4: for results carrying the distinct ordinals `0..N-1` arriving in
any order, the writer emits the header followed by exactly one line per
result in strictly increasing ordinal order, the still-buffered results
being flushed in ordinal order after the stream ends. -/
theorem writeOutput_ordered (N : Nat) (q : Nat → snpLine) (order : List Nat)
    (hperm : order.Perm (List.range N)) (hidx : ∀ i, (q i).idx = i) :
    writeOutput (order.map q) =
      "query,SNPs" :: (List.range N).map (fun i => renderSnpLine (q i)) := by
  have hfold : (order.map q).foldl writeStep (⟨[], 0, []⟩ : WriterState) =
      order.foldl (fun s j => writeStep s (q j)) (⟨[], 0, []⟩ : WriterState) :=
    List.foldl_map q writeStep order ⟨[], 0, []⟩
  have hnodup : order.Nodup := hperm.nodup_iff.mpr (List.nodup_range N)
  have hmemN : ∀ x, x ∈ order ↔ x < N := by
    intro x
    rw [hperm.mem_iff, List.mem_range]
  have hInv₀ : WriterInv q [] (⟨[], 0, []⟩ : WriterState) := by
    refine ⟨rfl, ?_, fun k hk => absurd hk (Nat.not_lt_zero k)⟩
    intro k
    simp [mapLookup]
  obtain ⟨done₂, hd₂, hInv⟩ :=
    writerInv_fold q hidx order [] ⟨[], 0, []⟩ hInv₀ hnodup (by simp)
  obtain ⟨hout, hmap, hlt⟩ := hInv
  set st := order.foldl (fun s j => writeStep s (q j)) (⟨[], 0, []⟩ : WriterState) with hst
  have hdone : ∀ x, x ∈ done₂ ↔ x < N := by
    intro x
    rw [hd₂ x, hmemN x]
    simp
  have hcle : st.counter ≤ N := by
    by_contra h
    have hNmem := hlt N (by omega)
    rw [hdone N] at hNmem
    omega
  have hmap₂ : ∀ k, mapLookup k st.pending =
      if st.counter ≤ k ∧ k < N then some (q k) else none := by
    intro k
    rw [hmap k]
    by_cases hk : st.counter ≤ k
    · by_cases hkN : k < N
      · rw [if_pos ⟨hk, (hdone k).mpr hkN⟩, if_pos ⟨hk, hkN⟩]
      · rw [if_neg (fun hc => hkN ((hdone k).mp hc.2)), if_neg (fun hc => hkN hc.2)]
    · rw [if_neg (fun hc => hk hc.1), if_neg (fun hc => hk hc.1)]
  have hlen : (order.map q).length = N := by
    rw [List.length_map, hperm.length_eq, List.length_range]
  have hdrain := drainLoop_run q N (order.map q).length st.pending st.counter hmap₂
    (by omega)
  show "query,SNPs" ::
      ((order.map q).foldl writeStep ⟨[], 0, []⟩).out ++
        drainLoop (order.map q).length
          ((order.map q).foldl writeStep ⟨[], 0, []⟩).pending
          ((order.map q).foldl writeStep ⟨[], 0, []⟩).counter = _
  rw [hfold, hout, hdrain]
  have hsplit : List.range N =
      List.range st.counter ++ List.range' st.counter (N - st.counter) := by
    rw [List.range_eq_range', List.range_eq_range']
    have happ := List.range'_append_1 0 st.counter (N - st.counter)
    rw [Nat.zero_add] at happ
    rw [happ]
    congr 1
    omega
  rw [hsplit, List.map_append, List.cons_append]



/-- Witness for C4: three results arriving in the order 1, 2, 0. -/
theorem writeOutput_ordered_witness :
    writeOutput ([1, 2, 0].map (fun i => (⟨toString i, [], i⟩ : snpLine))) =
      "query,SNPs" ::
        (List.range 3).map (fun i => renderSnpLine (⟨toString i, [], i⟩ : snpLine)) :=
  writeOutput_ordered 3 (fun i => ⟨toString i, [], i⟩) [1, 2, 0] (by decide) (fun i => rfl)


end Snps
